import Mathlib

/-
Verification of the bandit decision engine of `bandits_trauma.ipynb`.

The notebook defines (cell-4) the function `ind_max` and the class `UCB1`
with methods `initialize`, `select_arm`, `update`; (cell-7) the training
harness `train_UCB1`; and (cell-12) the comparison harness `bandit_vs_AB`.

Embedding conventions:
* Python ints that only ever hold arm counts are modelled as `ℕ`;
  arm indices passed to `update` are modelled as `ℤ` because Python list
  indexing accepts negative indices (they address from the end).
* Python floats (rewards, running means) are modelled as exact rationals
  `ℚ`; the UCB scores, which involve `sqrt` and `log`, live in `ℝ`.
* A Python expression that can raise (list indexing out of range,
  `max` of an empty sequence) is modelled with `Option`: `none` means
  the call raised and the exception propagates to the caller.
* The hidden randomness of `SimpleEmergency` and `apply_treatment` is
  abstracted as an oracle `ℕ → String → Bool` giving, for each trial
  index and treatment label, the realized success of that evaluation.
-/

/-- Python list indexing semantics for a list of length `len` and an
integer index `i`: indices in `[0, len)` address directly, indices in
`[-len, 0)` address from the end (`len + i`), anything else raises
`IndexError` (modelled as `none`). -/
def pyIdx (len : ℕ) (i : ℤ) : Option ℕ :=
  if 0 ≤ i then
    if i < (len : ℤ) then some i.toNat else none
  else
    if -(len : ℤ) ≤ i then some ((len : ℤ) + i).toNat else none

/-- The state of the `UCB1` agent of cell-4: `self.counts` and
`self.values`.  `UCB1.init` creates the two lists with the same
length and `UCB1.update` writes both at the same resolved index, so in
every reachable state the two lists have equal length. -/
structure UCB1 where
  counts : List ℕ
  values : List ℚ
deriving DecidableEq

/-- `UCB1.initialize` (also run by the constructor `UCB1.__init__`):
`counts = [0 for col in range(n_arms)]`, `values = [0.0 ...]`. -/
def UCB1.init (n_arms : ℕ) : UCB1 :=
  { counts := List.replicate n_arms 0, values := List.replicate n_arms 0 }

/-- The cold-start scan at the top of `select_arm`:
`for arm in range(n_arms): if self.counts[arm] == 0: return arm`.
Returns the first index holding `0`, or `none` if the loop falls through. -/
def firstZero : List ℕ → Option ℕ
  | [] => none
  | c :: cs => if c = 0 then some 0 else (firstZero cs).map (fun t => t + 1)

/-- One UCB score of cell-4:
`self.values[arm] + math.sqrt((2 * math.log(total_counts)) / float(self.counts[arm]))`. -/
noncomputable def ucbScore (value : ℚ) (total_counts count : ℕ) : ℝ :=
  (value : ℝ) + Real.sqrt ((2 * Real.log (total_counts : ℝ)) / (count : ℝ))

/-- The list `ucb_values` built by the second loop of `select_arm`, with
`total_counts = sum(self.counts)`. -/
noncomputable def ucbList (b : UCB1) : List ℝ :=
  (List.range b.counts.length).map
    (fun arm => ucbScore (b.values.getD arm 0) b.counts.sum (b.counts.getD arm 0))

/-- Python `list.index(m)`: index of the first element equal to `m`.
(`ind_max` only ever calls it with `m` a member of the list; on a list
not containing `m` Python would raise, a case that cannot arise here.) -/
noncomputable def pyIndex (m : ℝ) : List ℝ → ℕ
  | [] => 0
  | a :: rest => if a = m then 0 else pyIndex m rest + 1

/-- `ind_max(x)`: `m = max(x); return x.index(m)`.  Python `max` raises
`ValueError` on an empty sequence (`none`); on `a :: rest` it is the left
fold of binary `max` started at `a`. -/
noncomputable def ind_max (x : List ℝ) : Option ℕ :=
  match x with
  | [] => none
  | a :: rest => some (pyIndex (rest.foldl max a) x)

/-- `UCB1.select_arm`: return the first arm with count 0 if any,
otherwise the index of the first maximal UCB score. -/
noncomputable def UCB1.select_arm (b : UCB1) : Option ℕ :=
  match firstZero b.counts with
  | some arm => some arm
  | none => ind_max (ucbList b)

/-- The new running mean computed by `UCB1.update`:
`((n - 1) / float(n)) * value + (1 / float(n)) * reward`. -/
def code_new_value (n value reward : ℚ) : ℚ :=
  ((n - 1) / n) * value + (1 / n) * reward

/-- The update rule as the spec words it (§4.1): `value[i] = value[i] +
(reward - value[i]) / count[i]` after incrementing.  Stated from the
spec only, for comparison with `code_new_value`. -/
def spec_record_value (value reward n : ℚ) : ℚ :=
  value + (reward - value) / n

/-- `UCB1.update(chosen_arm, reward)`: increment `self.counts[chosen_arm]`,
re-read `n = self.counts[chosen_arm]`, read `value = self.values[chosen_arm]`
and store the new running mean.  Both list accesses use Python indexing
(`pyIdx`); an out-of-range index raises (`none`). -/
def UCB1.update (b : UCB1) (chosen_arm : ℤ) (reward : ℚ) : Option UCB1 :=
  (pyIdx b.counts.length chosen_arm).bind (fun i =>
    let counts1 := b.counts.set i (b.counts.getD i 0 + 1)
    let n : ℚ := ((counts1.getD i 0 : ℕ) : ℚ)
    (pyIdx b.values.length chosen_arm).bind (fun j =>
      let value := b.values.getD j 0
      some { counts := counts1, values := b.values.set j (code_new_value n value reward) }))

/-- Feeding a list of rewards to a single arm `i` by successive
`update(i, r)` calls. -/
def feed (b : UCB1) (i : ℕ) : List ℚ → Option UCB1
  | [] => some b
  | r :: rs => (b.update (i : ℤ) r).bind (fun b1 => feed b1 i rs)

/-- The first `j` select/update cycles on a fresh `K`-arm agent, the
`t`-th update using reward `r t` (the cold-start experiment of §8). -/
noncomputable def coldRun (K : ℕ) (r : ℕ → ℚ) : ℕ → Option UCB1
  | 0 => some (UCB1.init K)
  | j + 1 =>
      (coldRun K r j).bind (fun b =>
        (b.select_arm).bind (fun a => b.update (a : ℤ) (r j)))

/-- The expected agent state after `j` cold-start cycles: the first `j`
arms have count 1 and value equal to their one observed reward, the
remaining `K - j` arms are untouched. -/
def coldState (K j : ℕ) (r : ℕ → ℚ) : UCB1 :=
  { counts := List.replicate j 1 ++ List.replicate (K - j) 0,
    values := (List.range j).map r ++ List.replicate (K - j) 0 }

/-- `treatments = ['basic', 'advanced']` of cells 9 and 12. -/
def treatments : List String := ["basic", "advanced"]

/-- The body of `bandit_vs_AB` (cell-12) after `i` trials, carrying
`(bandit, bandit_score, AB_score)`.  `envB t s` (resp. `envAB t s`) is the
realized outcome of `e.apply_treatment(s)` for the bandit's (resp. the
A/B baseline's) evaluation at trial `t`; the two draws are independent
in the source, hence two separate oracles. -/
noncomputable def bandit_vs_AB_loop (envB envAB : ℕ → String → Bool) :
    ℕ → Option (UCB1 × ℕ × ℕ)
  | 0 => some (UCB1.init treatments.length, 0, 0)
  | i + 1 =>
      (bandit_vs_AB_loop envB envAB i).bind (fun st =>
        (st.1.select_arm).bind (fun action =>
          (treatments.get? action).bind (fun bandit_treatment =>
            (st.1.update (action : ℤ)
                (if envB i bandit_treatment then 1 else 0)).bind (fun bandit1 =>
              ((if i % 2 = 0 then treatments.get? 0 else treatments.get? 1)).bind
                (fun AB_treatment =>
                  some (bandit1,
                        (if envB i bandit_treatment then st.2.1 + 1 else st.2.1),
                        (if envAB i AB_treatment then st.2.2 + 1 else st.2.2)))))))

/-- `bandit_vs_AB()` run for `trials` trials, returning
`(bandit_score, AB_score)`.  (The source fixes `trials = 1000` inside the
function body; the trial count is a parameter here.) -/
noncomputable def bandit_vs_AB (trials : ℕ) (envB envAB : ℕ → String → Bool) :
    Option (ℕ × ℕ) :=
  (bandit_vs_AB_loop envB envAB trials).map (fun st => (st.2.1, st.2.2))

/-- The loop of `train_UCB1` (cell-7) after `t` trials: select an arm,
look its label up in `arm_labels`, reward 1.0 on success else 0.0.
`env t s` is the realized outcome of `e.apply_treatment(s)` at trial `t`. -/
noncomputable def trainLoop (arm_labels : List String) (env : ℕ → String → Bool) :
    ℕ → Option UCB1
  | 0 => some (UCB1.init arm_labels.length)
  | t + 1 =>
      (trainLoop arm_labels env t).bind (fun b =>
        (b.select_arm).bind (fun action =>
          (arm_labels.get? action).bind (fun label =>
            b.update (action : ℤ) (if env t label then 1 else 0))))

/-- `train_UCB1(trials, arm_labels)`: the agent returned after `trials`
trials. -/
noncomputable def train_UCB1 (trials : ℕ) (arm_labels : List String)
    (env : ℕ → String → Bool) : Option UCB1 :=
  trainLoop arm_labels env trials

/- ### List helper lemmas -/

lemma getD_mem {α : Type} (l : List α) (i : ℕ) (d : α) (h : i < l.length) :
    l.getD i d ∈ l := by
  induction l generalizing i with
  | nil => simp at h
  | cons a t ih =>
    cases i with
    | zero => simp
    | succ k =>
      simp only [List.getD_cons_succ]
      exact List.mem_cons_of_mem a (ih k (by simpa using h))

lemma getD_set_self {α : Type} (l : List α) (i : ℕ) (x d : α) (h : i < l.length) :
    (l.set i x).getD i d = x := by
  induction l generalizing i with
  | nil => simp at h
  | cons a t ih =>
    cases i with
    | zero => simp
    | succ k => simpa using ih k (by simpa using h)

lemma sum_set_getD_succ (l : List ℕ) (a : ℕ) (h : a < l.length) :
    (l.set a (l.getD a 0 + 1)).sum = l.sum + 1 := by
  induction l generalizing a with
  | nil => simp at h
  | cons c t ih =>
    cases a with
    | zero => simp [Nat.add_assoc, Nat.add_comm, Nat.add_left_comm]
    | succ k =>
      have := ih k (by simpa using h)
      simp only [List.getD_cons_succ, List.set_cons_succ, List.sum_cons] at *
      omega

lemma set_append_length {α : Type} (A B : List α) (x : α) :
    (A ++ B).set A.length x = A ++ B.set 0 x := by
  induction A with
  | nil => simp
  | cons a t ih => simp [ih]

lemma getD_append_length {α : Type} (A B : List α) (d : α) :
    (A ++ B).getD A.length d = B.getD 0 d := by
  induction A with
  | nil => simp
  | cons a t ih => simpa using ih

lemma getD_append_lt {α : Type} (A B : List α) (d : α) (i : ℕ) (h : i < A.length) :
    (A ++ B).getD i d = A.getD i d := by
  induction A generalizing i with
  | nil => simp at h
  | cons a t ih =>
    cases i with
    | zero => simp
    | succ k => simpa using ih k (by simpa using h)

lemma getD_replicate {α : Type} (n i : ℕ) (x d : α) (h : i < n) :
    (List.replicate n x).getD i d = x := by
  induction n generalizing i with
  | zero => omega
  | succ m ih =>
    cases i with
    | zero => simp [List.replicate_succ]
    | succ k => simpa [List.replicate_succ] using ih k (by omega)

/- ### firstZero lemmas -/

lemma firstZero_eq_none (l : List ℕ) (h : ∀ c ∈ l, c ≠ 0) : firstZero l = none := by
  induction l with
  | nil => rfl
  | cons c t ih =>
    have hc : c ≠ 0 := h c (List.mem_cons_self c t)
    simp [firstZero, hc, ih (fun x hx => h x (List.mem_cons_of_mem c hx))]

lemma firstZero_lt_length (l : List ℕ) (i : ℕ) (h : firstZero l = some i) :
    i < l.length := by
  induction l generalizing i with
  | nil => simp [firstZero] at h
  | cons c t ih =>
    by_cases hc : c = 0
    · simp [firstZero, hc] at h
      simp [← h]
    · simp only [firstZero, hc, if_false, Option.map_eq_some'] at h
      obtain ⟨j, hj, rfl⟩ := h
      have := ih j hj
      simp only [List.length_cons]
      omega

lemma firstZero_first (l : List ℕ) (i : ℕ) (hi : i < l.length)
    (h0 : l.getD i 0 = 0) (hmin : ∀ t, t < i → l.getD t 0 ≠ 0) :
    firstZero l = some i := by
  induction l generalizing i with
  | nil => simp at hi
  | cons c t ih =>
    by_cases hc : c = 0
    · have : i = 0 := by
        by_contra hne
        exact (hmin 0 (Nat.pos_of_ne_zero hne)) (by simpa using hc)
      simp [firstZero, hc, this]
    · cases i with
      | zero => simp at h0; exact absurd h0 hc
      | succ k =>
        have hk : firstZero t = some k :=
          ih k (by simpa using hi) (by simpa using h0)
            (fun s hs => by
              have := hmin (s + 1) (by omega)
              simpa using this)
        simp [firstZero, hc, hk]

lemma firstZero_replicate_one_append (j : ℕ) (l : List ℕ) :
    firstZero (List.replicate j 1 ++ l) = (firstZero l).map (fun t => t + j) := by
  induction j with
  | zero => cases h : firstZero l <;> simp [h]
  | succ m ih =>
    have hstep : firstZero (List.replicate (m + 1) 1 ++ l)
        = (firstZero (List.replicate m 1 ++ l)).map (fun t => t + 1) := by
      simp [List.replicate_succ, firstZero]
    rw [hstep, ih]
    cases h : firstZero l
    · simp
    · simp [Nat.add_assoc]

/- ### Python max / list.index / ind_max lemmas -/

lemma foldl_max_mem (rest : List ℝ) (a : ℝ) : rest.foldl max a ∈ a :: rest := by
  induction rest generalizing a with
  | nil => simp
  | cons b t ih =>
    rw [List.foldl_cons]
    rcases List.mem_cons.mp (ih (max a b)) with h1 | h1
    · rcases max_choice a b with hm | hm
      · rw [h1, hm]
        exact List.mem_cons_self _ _
      · rw [h1, hm]
        exact List.mem_cons_of_mem _ (List.mem_cons_self _ _)
    · exact List.mem_cons_of_mem _ (List.mem_cons_of_mem _ h1)

lemma le_foldl_max (rest : List ℝ) : ∀ a y : ℝ, y ∈ a :: rest → y ≤ rest.foldl max a := by
  induction rest with
  | nil =>
    intro a y hy
    simp at hy
    simp [hy]
  | cons b t ih =>
    intro a y hy
    rw [List.foldl_cons]
    have hhead : max a b ≤ t.foldl max (max a b) :=
      ih (max a b) (max a b) (List.mem_cons_self _ _)
    rcases List.mem_cons.mp hy with h1 | h1
    · exact le_trans (h1 ▸ le_max_left a b) hhead
    · rcases List.mem_cons.mp h1 with h2 | h2
      · exact le_trans (h2 ▸ le_max_right a b) hhead
      · exact ih (max a b) y (List.mem_cons_of_mem _ h2)

lemma pyIndex_spec (x : List ℝ) (m : ℝ) (hm : m ∈ x) :
    pyIndex m x < x.length ∧ x.getD (pyIndex m x) 0 = m ∧
      ∀ j, j < pyIndex m x → x.getD j 0 ≠ m := by
  induction x with
  | nil => simp at hm
  | cons a rest ih =>
    by_cases ha : a = m
    · refine ⟨by simp [pyIndex, ha], by simp [pyIndex, ha], ?_⟩
      intro j hj
      simp [pyIndex, ha] at hj
    · have hm' : m ∈ rest := by
        rcases List.mem_cons.mp hm with h | h
        · exact absurd h.symm ha
        · exact h
      obtain ⟨h1, h2, h3⟩ := ih hm'
      refine ⟨by simpa [pyIndex, ha] using h1, by simpa [pyIndex, ha] using h2, ?_⟩
      intro j hj
      simp only [pyIndex, ha, if_false] at hj
      cases j with
      | zero => simpa using ha
      | succ k =>
        simp only [List.getD_cons_succ]
        exact h3 k (by omega)

lemma ind_max_spec (x : List ℝ) (hne : x ≠ []) :
    ∃ i, ind_max x = some i ∧ i < x.length ∧
      (∀ j, j < x.length → x.getD j 0 ≤ x.getD i 0) ∧
      (∀ j, j < i → x.getD j 0 < x.getD i 0) := by
  obtain ⟨a, rest, rfl⟩ := List.exists_cons_of_ne_nil hne
  set m := rest.foldl max a with hm
  have hmem : m ∈ a :: rest := foldl_max_mem rest a
  obtain ⟨h1, h2, h3⟩ := pyIndex_spec (a :: rest) m hmem
  refine ⟨pyIndex m (a :: rest), rfl, h1, ?_, ?_⟩
  · intro j hj
    rw [h2]
    exact le_foldl_max rest a _ (getD_mem (a :: rest) j 0 hj)
  · intro j hj
    have hle : (a :: rest).getD j 0 ≤ (a :: rest).getD (pyIndex m (a :: rest)) 0 := by
      rw [h2]
      exact le_foldl_max rest a _ (getD_mem (a :: rest) j 0 (lt_trans hj h1))
    have hne' : (a :: rest).getD j 0 ≠ (a :: rest).getD (pyIndex m (a :: rest)) 0 := by
      rw [h2]
      exact h3 j hj
    exact lt_of_le_of_ne hle hne'

/- ### ucbList and select_arm lemmas -/

lemma ucbList_length (b : UCB1) : (ucbList b).length = b.counts.length := by
  simp [ucbList]

lemma ucbList_getD (b : UCB1) (j : ℕ) (hj : j < b.counts.length) :
    (ucbList b).getD j 0 =
      ucbScore (b.values.getD j 0) b.counts.sum (b.counts.getD j 0) := by
  have hlen : j < (ucbList b).length := by rw [ucbList_length]; exact hj
  rw [List.getD_eq_getElem (ucbList b) 0 hlen]
  simp [ucbList]

lemma select_arm_cold (b : UCB1) (i : ℕ) (h : firstZero b.counts = some i) :
    b.select_arm = some i := by
  simp [UCB1.select_arm, h]

lemma select_arm_warm (b : UCB1) (h : firstZero b.counts = none) :
    b.select_arm = ind_max (ucbList b) := by
  simp [UCB1.select_arm, h]

lemma select_arm_some (b : UCB1) (hne : b.counts ≠ []) :
    ∃ a, b.select_arm = some a ∧ a < b.counts.length := by
  cases hfz : firstZero b.counts with
  | some i => exact ⟨i, select_arm_cold b i hfz, firstZero_lt_length _ i hfz⟩
  | none =>
    have hx : ucbList b ≠ [] := by
      intro hnil
      have := ucbList_length b
      rw [hnil] at this
      exact hne (List.length_eq_zero.mp this.symm)
    obtain ⟨i, hi, hlt, -, -⟩ := ind_max_spec (ucbList b) hx
    refine ⟨i, ?_, by rwa [ucbList_length b] at hlt⟩
    rw [select_arm_warm b hfz, hi]

/- ### pyIdx and update lemmas -/

lemma pyIdx_natCast (len a : ℕ) (h : a < len) : pyIdx len (a : ℤ) = some a := by
  simp [pyIdx, Int.toNat_ofNat]
  omega

lemma pyIdx_out_of_range (len : ℕ) (i : ℤ)
    (h : (len : ℤ) ≤ i ∨ i < -(len : ℤ)) : pyIdx len i = none := by
  rcases h with h | h
  · have h0 : 0 ≤ i := le_trans (Int.ofNat_nonneg len) h
    simp [pyIdx, h0]
    omega
  · have h0 : ¬ 0 ≤ i := by
      have : (0 : ℤ) ≤ len := Int.ofNat_nonneg len
      omega
    simp [pyIdx, h0]
    omega

lemma pyIdx_neg (len : ℕ) (i : ℤ) (hneg : i < 0) (hge : -(len : ℤ) ≤ i) :
    pyIdx len i = some ((len : ℤ) + i).toNat := by
  have h0 : ¬ 0 ≤ i := by omega
  simp [pyIdx, h0, hge]

lemma update_nat_spec (b : UCB1) (i : ℕ) (r : ℚ)
    (hic : i < b.counts.length) (hiv : i < b.values.length) :
    b.update (i : ℤ) r =
      some { counts := b.counts.set i (b.counts.getD i 0 + 1),
             values := b.values.set i
               (code_new_value ((b.counts.getD i 0 : ℚ) + 1) (b.values.getD i 0) r) } := by
  rw [UCB1.update, pyIdx_natCast _ _ hic, Option.some_bind, pyIdx_natCast _ _ hiv,
    Option.some_bind]
  have hset : (b.counts.set i (b.counts.getD i 0 + 1)).getD i 0 = b.counts.getD i 0 + 1 :=
    getD_set_self b.counts i _ 0 hic
  simp only [hset]
  push_cast
  rfl

/- ### Cold-start run lemmas -/

lemma replicate_cons_of_pos {α : Type} (n : ℕ) (x : α) (h : 0 < n) :
    List.replicate n x = x :: List.replicate (n - 1) x := by
  cases n with
  | zero => omega
  | succ d =>
    rw [List.replicate_succ]
    simp

lemma coldState_counts_length (K j : ℕ) (r : ℕ → ℚ) (hj : j ≤ K) :
    (coldState K j r).counts.length = K := by
  simp [coldState]
  omega

lemma coldState_values_length (K j : ℕ) (r : ℕ → ℚ) (hj : j ≤ K) :
    (coldState K j r).values.length = K := by
  simp [coldState]
  omega

lemma coldState_select (K j : ℕ) (r : ℕ → ℚ) (hj : j < K) :
    (coldState K j r).select_arm = some j := by
  apply select_arm_cold
  show firstZero (List.replicate j 1 ++ List.replicate (K - j) 0) = some j
  rw [firstZero_replicate_one_append, replicate_cons_of_pos (K - j) 0 (by omega)]
  simp [firstZero]

lemma coldState_update (K j : ℕ) (r : ℕ → ℚ) (hj : j < K) :
    (coldState K j r).update (j : ℤ) (r j) = some (coldState K (j + 1) r) := by
  have hjc : j < (coldState K j r).counts.length := by
    rw [coldState_counts_length K j r (le_of_lt hj)]
    exact hj
  have hjv : j < (coldState K j r).values.length := by
    rw [coldState_values_length K j r (le_of_lt hj)]
    exact hj
  rw [update_nat_spec _ j _ hjc hjv]
  have hlen1 : (List.replicate j (1 : ℕ)).length = j := List.length_replicate j 1
  have hlenr : ((List.range j).map r).length = j := by simp
  have hrep : List.replicate (K - j) (0 : ℕ) = 0 :: List.replicate (K - j - 1) 0 :=
    replicate_cons_of_pos (K - j) 0 (by omega)
  have hrepq : List.replicate (K - j) (0 : ℚ) = 0 :: List.replicate (K - j - 1) 0 :=
    replicate_cons_of_pos (K - j) 0 (by omega)
  have hc0 : (coldState K j r).counts.getD j 0 = 0 := by
    show (List.replicate j 1 ++ List.replicate (K - j) 0).getD j 0 = 0
    have h := getD_append_length (List.replicate j (1 : ℕ)) (List.replicate (K - j) 0) 0
    rw [hlen1] at h
    rw [h, hrep]
    rfl
  have hv0 : (coldState K j r).values.getD j 0 = 0 := by
    have h := getD_append_length ((List.range j).map r) (List.replicate (K - j) (0 : ℚ)) 0
    rw [hlenr] at h
    simp only [coldState]
    rw [h, hrepq]
    rfl
  rw [hc0, hv0]
  have hcounts : (List.replicate j (1 : ℕ) ++ List.replicate (K - j) 0).set j (0 + 1)
      = List.replicate (j + 1) 1 ++ List.replicate (K - (j + 1)) 0 := by
    have hset := set_append_length (List.replicate j (1 : ℕ))
      (List.replicate (K - j) 0) (0 + 1)
    rw [hlen1] at hset
    rw [hset, hrep]
    show List.replicate j 1 ++ (1 :: List.replicate (K - j - 1) 0)
        = List.replicate (j + 1) 1 ++ List.replicate (K - (j + 1)) 0
    rw [List.replicate_succ' j 1]
    have hd : K - j - 1 = K - (j + 1) := by omega
    rw [hd, List.append_assoc, List.singleton_append]
  have hcnv : code_new_value ((0 : ℚ) + 1) 0 (r j) = r j := by
    simp [code_new_value]
  have hvalues : ((List.range j).map r ++ List.replicate (K - j) 0).set j
        (code_new_value (((0 : ℕ) : ℚ) + 1) 0 (r j))
      = (List.range (j + 1)).map r ++ List.replicate (K - (j + 1)) 0 := by
    have hset := set_append_length ((List.range j).map r)
      (List.replicate (K - j) (0 : ℚ)) (code_new_value (((0 : ℕ) : ℚ) + 1) 0 (r j))
    rw [hlenr] at hset
    rw [hset, hrepq]
    show (List.range j).map r
          ++ (code_new_value (((0 : ℕ) : ℚ) + 1) 0 (r j) :: List.replicate (K - j - 1) 0)
        = (List.range (j + 1)).map r ++ List.replicate (K - (j + 1)) 0
    have hcast : (((0 : ℕ) : ℚ) + 1) = ((0 : ℚ) + 1) := by norm_num
    rw [hcast, hcnv, List.range_succ, List.map_append]
    have hd : K - j - 1 = K - (j + 1) := by omega
    rw [hd, List.append_assoc]
    rfl
  show some (UCB1.mk
      ((List.replicate j 1 ++ List.replicate (K - j) 0).set j (0 + 1))
      (((List.range j).map r ++ List.replicate (K - j) 0).set j
        (code_new_value (((0 : ℕ) : ℚ) + 1) 0 (r j))))
    = some (UCB1.mk (List.replicate (j + 1) 1 ++ List.replicate (K - (j + 1)) 0)
      ((List.range (j + 1)).map r ++ List.replicate (K - (j + 1)) 0))
  rw [hcounts, hvalues]

lemma coldRun_eq (K : ℕ) (r : ℕ → ℚ) (j : ℕ) (hj : j ≤ K) :
    coldRun K r j = some (coldState K j r) := by
  induction j with
  | zero =>
    show some (UCB1.init K) = some (coldState K 0 r)
    simp [UCB1.init, coldState]
  | succ m ih =>
    have hm : m < K := by omega
    rw [coldRun, ih (by omega), Option.some_bind, coldState_select K m r hm,
      Option.some_bind, coldState_update K m r hm]

/- ### Incremental-mean (feed) lemmas -/

lemma feed_spec (rs : List ℚ) :
    ∀ b : UCB1, ∀ i : ℕ, i < b.counts.length → b.counts.length = b.values.length →
      ∃ b' : UCB1, feed b i rs = some b' ∧
        b'.counts.length = b.counts.length ∧
        b'.values.length = b.values.length ∧
        b'.counts.getD i 0 = b.counts.getD i 0 + rs.length ∧
        b'.values.getD i 0 * ((b.counts.getD i 0 : ℚ) + rs.length)
          = b.values.getD i 0 * (b.counts.getD i 0 : ℚ) + rs.sum := by
  induction rs with
  | nil =>
    intro b i hic hwf
    refine ⟨b, rfl, rfl, rfl, by simp, by simp⟩
  | cons r rest ih =>
    intro b i hic hwf
    have hiv : i < b.values.length := hwf ▸ hic
    set c : ℕ := b.counts.getD i 0 with hc
    set v : ℚ := b.values.getD i 0 with hv
    set b1 : UCB1 :=
      { counts := b.counts.set i (c + 1),
        values := b.values.set i (code_new_value ((c : ℚ) + 1) v r) } with hb1
    have hupd : b.update (i : ℤ) r = some b1 := update_nat_spec b i r hic hiv
    have hb1c : b1.counts.length = b.counts.length := by simp [hb1]
    have hb1v : b1.values.length = b.values.length := by simp [hb1]
    have hb1cd : b1.counts.getD i 0 = c + 1 := getD_set_self b.counts i (c + 1) 0 hic
    have hb1vd : b1.values.getD i 0 = code_new_value ((c : ℚ) + 1) v r :=
      getD_set_self b.values i _ 0 hiv
    obtain ⟨b', hfeed, hlc, hlv, hcnt, hval⟩ :=
      ih b1 i (hb1c ▸ hic) (by rw [hb1c, hb1v]; exact hwf)
    refine ⟨b', ?_, hb1c ▸ hlc, hb1v ▸ hlv, ?_, ?_⟩
    · rw [feed, hupd, Option.some_bind, hfeed]
    · rw [hcnt, hb1cd]
      simp [List.length_cons]
      omega
    · rw [hb1cd, hb1vd] at hval
      have hcpos : ((c : ℚ) + 1) ≠ 0 := by positivity
      have hmean : code_new_value ((c : ℚ) + 1) v r * ((c : ℚ) + 1) = v * (c : ℚ) + r := by
        rw [code_new_value]
        field_simp
        ring
      have hlen : ((r :: rest).length : ℚ) = (rest.length : ℚ) + 1 := by
        push_cast [List.length_cons]
        ring
      have hcast : ((c + 1 : ℕ) : ℚ) = (c : ℚ) + 1 := by push_cast; ring
      rw [hcast] at hval
      calc b'.values.getD i 0 * ((c : ℚ) + ((r :: rest).length : ℚ))
          = b'.values.getD i 0 * (((c : ℚ) + 1) + (rest.length : ℚ)) := by
            rw [hlen]; ring
        _ = code_new_value ((c : ℚ) + 1) v r * ((c : ℚ) + 1) + rest.sum := hval
        _ = v * (c : ℚ) + r + rest.sum := by rw [hmean]
        _ = v * (c : ℚ) + (r :: rest).sum := by rw [List.sum_cons]; ring

/- ### Confidence-decay lemmas -/

lemma pow_bound_aux : ∀ k d : ℕ, (k + d + 2) ^ k * (d + 1) + k ≤ (k + d + 1) ^ (k + 1) := by
  intro k
  induction k with
  | zero =>
    intro d
    simp
  | succ k ih =>
    intro d
    have ihd := ih (d + 1)
    have hrw : k + (d + 1) + 2 = k + d + 3 := by omega
    have hrw2 : k + (d + 1) + 1 = k + d + 2 := by omega
    have hrw3 : d + 1 + 1 = d + 2 := by omega
    rw [hrw, hrw2, hrw3] at ihd
    have hpow1 : 1 ≤ (k + d + 3) ^ k := Nat.one_le_pow k (k + d + 3) (by omega)
    have hgoal1 : k + 1 + d + 2 = k + d + 3 := by omega
    have hgoal2 : k + 1 + d + 1 = k + d + 2 := by omega
    rw [hgoal1, hgoal2]
    have hmul : ((k + d + 3) ^ k * (d + 2) + k) * (k + d + 2)
        ≤ (k + d + 2) ^ (k + 1) * (k + d + 2) :=
      Nat.mul_le_mul_right (k + d + 2) ihd
    have hid : ((k + d + 3) ^ k * (d + 2) + k) * (k + d + 2)
        = (k + d + 3) ^ (k + 1) * (d + 1) + ((k + d + 3) ^ k * (k + 1) + k * (k + d + 2)) := by
      ring
    have hpowsucc : (k + d + 2) ^ (k + 1) * (k + d + 2) = (k + d + 2) ^ (k + 1 + 1) :=
      (pow_succ (k + d + 2) (k + 1)).symm
    have hk1 : k + 1 ≤ (k + d + 3) ^ k * (k + 1) := Nat.le_mul_of_pos_left (k + 1) hpow1
    rw [hid, hpowsucc] at hmul
    omega

lemma succ_pow_lt_pow_succ (m k : ℕ) (hk : 1 ≤ k) (hkm : k < m) :
    (m + 1) ^ k < m ^ (k + 1) := by
  obtain ⟨d, rfl⟩ : ∃ d, m = k + d + 1 := ⟨m - k - 1, by omega⟩
  have h := pow_bound_aux k d
  have h1 : (k + d + 2) ^ k * 1 ≤ (k + d + 2) ^ k * (d + 1) :=
    Nat.mul_le_mul_left _ (by omega)
  have hrw : k + d + 1 + 1 = k + d + 2 := by omega
  rw [hrw]
  omega

lemma log_div_step (S k : ℕ) (hS : 1 ≤ S) (hk : 1 ≤ k) :
    Real.log ((S + (k + 1) : ℕ) : ℝ) / ((k + 1 : ℕ) : ℝ)
      < Real.log ((S + k : ℕ) : ℝ) / ((k : ℕ) : ℝ) := by
  have hkm : k < S + k := by omega
  have hpow := succ_pow_lt_pow_succ (S + k) k hk hkm
  have hpowR : (((S + k + 1) : ℕ) : ℝ) ^ k < (((S + k) : ℕ) : ℝ) ^ (k + 1) := by
    have := (Nat.cast_lt (α := ℝ)).mpr hpow
    push_cast at this ⊢
    convert this using 2
  have hbase_pos : (0 : ℝ) < (((S + k + 1) : ℕ) : ℝ) ^ k := by positivity
  have hlog := Real.log_lt_log hbase_pos hpowR
  rw [Real.log_pow, Real.log_pow] at hlog
  have hk0 : (0 : ℝ) < ((k : ℕ) : ℝ) := by exact_mod_cast hk
  have hk1 : (0 : ℝ) < (((k + 1) : ℕ) : ℝ) := by positivity
  rw [div_lt_div_iff₀ hk1 hk0]
  have hrw1 : ((S + (k + 1) : ℕ) : ℝ) = ((S + k + 1 : ℕ) : ℝ) := by norm_cast
  rw [hrw1]
  push_cast at hlog ⊢
  nlinarith [hlog]

lemma log_div_anti (S c c' : ℕ) (hS : 1 ≤ S) (hc : 1 ≤ c) (hcc : c < c') :
    Real.log ((S + c' : ℕ) : ℝ) / ((c' : ℕ) : ℝ)
      < Real.log ((S + c : ℕ) : ℝ) / ((c : ℕ) : ℝ) := by
  induction c' with
  | zero => omega
  | succ n ihn =>
    by_cases hcn : c = n
    · subst hcn
      exact log_div_step S c hS hc
    · have hlt : c < n := by omega
      have h1 := ihn hlt
      have hn1 : 1 ≤ n := by omega
      have h2 := log_div_step S n hS hn1
      exact lt_trans h2 h1

/- ### Comparison-loop lemmas -/

lemma bandit_loop_succ (envB envAB : ℕ → String → Bool) (i : ℕ) (s2 : UCB1 × ℕ × ℕ)
    (h : bandit_vs_AB_loop envB envAB (i + 1) = some s2) :
    ∃ s1, bandit_vs_AB_loop envB envAB i = some s1 ∧
      (s2.2.1 = s1.2.1 ∨ s2.2.1 = s1.2.1 + 1) ∧
      (s2.2.2 = s1.2.2 ∨ s2.2.2 = s1.2.2 + 1) := by
  rw [bandit_vs_AB_loop] at h
  rcases Option.bind_eq_some.mp h with ⟨s1, hs1, h1⟩
  rcases Option.bind_eq_some.mp h1 with ⟨a, ha, h2⟩
  rcases Option.bind_eq_some.mp h2 with ⟨tr, htr, h3⟩
  rcases Option.bind_eq_some.mp h3 with ⟨b1, hb1, h4⟩
  rcases Option.bind_eq_some.mp h4 with ⟨tr2, htr2, h5⟩
  have h6 := Option.some.inj h5
  refine ⟨s1, hs1, ?_, ?_⟩
  · rw [← h6]
    cases envB i tr <;> simp
  · rw [← h6]
    cases envAB i tr2 <;> simp

lemma bandit_loop_bounds (envB envAB : ℕ → String → Bool) :
    ∀ i : ℕ, ∀ s : UCB1 × ℕ × ℕ, bandit_vs_AB_loop envB envAB i = some s →
      s.2.1 ≤ i ∧ s.2.2 ≤ i := by
  intro i
  induction i with
  | zero =>
    intro s hs
    have h := Option.some.inj hs
    rw [← h]
    simp
  | succ m ih =>
    intro s hs
    obtain ⟨s1, hs1, hx, hy⟩ := bandit_loop_succ envB envAB m s hs
    obtain ⟨hx1, hy1⟩ := ih s1 hs1
    constructor
    · rcases hx with h | h <;> omega
    · rcases hy with h | h <;> omega

/- ### Training-loop lemmas -/

lemma trainLoop_spec (arm_labels : List String) (env : ℕ → String → Bool)
    (hne : arm_labels ≠ []) :
    ∀ t : ℕ, ∃ b : UCB1, trainLoop arm_labels env t = some b ∧
      b.counts.length = arm_labels.length ∧
      b.values.length = arm_labels.length ∧
      b.counts.sum = t := by
  intro t
  induction t with
  | zero =>
    refine ⟨UCB1.init arm_labels.length, rfl, by simp [UCB1.init], by simp [UCB1.init], ?_⟩
    simp [UCB1.init]
  | succ m ih =>
    obtain ⟨b, hb, hlc, hlv, hsum⟩ := ih
    have hcne : b.counts ≠ [] := by
      intro hnil
      rw [hnil] at hlc
      exact hne (List.length_eq_zero.mp hlc.symm)
    obtain ⟨a, hsel, halt⟩ := select_arm_some b hcne
    have halab : a < arm_labels.length := hlc ▸ halt
    have halv : a < b.values.length := by omega
    have hget : arm_labels.get? a = some (arm_labels.get ⟨a, halab⟩) :=
      List.get?_eq_get halab
    have hupd := update_nat_spec b a
      (if env m (arm_labels.get ⟨a, halab⟩) then 1 else 0) halt halv
    refine ⟨{ counts := b.counts.set a (b.counts.getD a 0 + 1),
              values := b.values.set a
                (code_new_value ((b.counts.getD a 0 : ℚ) + 1) (b.values.getD a 0)
                  (if env m (arm_labels.get ⟨a, halab⟩) then 1 else 0)) }, ?_, ?_, ?_, ?_⟩
    · rw [trainLoop, hb, Option.some_bind, hsel, Option.some_bind, hget,
        Option.some_bind, hupd]
    · simpa using hlc
    · simpa using hlv
    · show (b.counts.set a (b.counts.getD a 0 + 1)).sum = m + 1
      rw [sum_set_getD_succ b.counts a halt, hsum]

/- ### Claim theorems -/

/-- Claim C1: on a fresh agent with `K` arms, the `j`-th cold-start
select/update cycle (`j < K`, arbitrary rewards) selects arm `j`, so the
first `K` calls return `0, 1, ..., K-1` in ascending order; equivalently,
whenever some arm has count 0, `select_arm` returns the lowest-indexed
such arm. -/
theorem cold_start_ascending (K : ℕ) (r : ℕ → ℚ) (j : ℕ) (hj : j < K)
    (b : UCB1) (i : ℕ) (hi : i < b.counts.length)
    (h0 : b.counts.getD i 0 = 0) (hmin : ∀ t, t < i → b.counts.getD t 0 ≠ 0) :
    (∃ s, coldRun K r j = some s ∧ s.select_arm = some j) ∧
      b.select_arm = some i := by
  constructor
  · exact ⟨coldState K j r, coldRun_eq K r j (le_of_lt hj), coldState_select K j r hj⟩
  · exact select_arm_cold b i (firstZero_first b.counts i hi h0 hmin)

/-- Witness for C1 at `K = 2`, `r = 1`, `j = 1`, and the agent
`⟨[2, 0], [1, 0]⟩` whose lowest zero-count arm is `1`. -/
theorem cold_start_ascending_witness :
    (1 < 2 ∧ 1 < (UCB1.mk [2, 0] [1, 0]).counts.length ∧
      (UCB1.mk [2, 0] [1, 0]).counts.getD 1 0 = 0 ∧
      (∀ t, t < 1 → (UCB1.mk [2, 0] [1, 0]).counts.getD t 0 ≠ 0)) ∧
    ((∃ s, coldRun 2 (fun _ => (1 : ℚ)) 1 = some s ∧ s.select_arm = some 1) ∧
      (UCB1.mk [2, 0] [1, 0]).select_arm = some 1) :=
  ⟨⟨by decide, by decide, by decide, by decide⟩,
    cold_start_ascending 2 (fun _ => (1 : ℚ)) 1 (by decide) (UCB1.mk [2, 0] [1, 0]) 1
      (by decide) (by decide) (by decide)⟩

/-- Claim C2: when every arm has count at least 1, `select_arm` returns
the index of the arm maximizing `value[i] + sqrt(2 * ln(total) / count[i])`,
with `total` the pre-selection sum of counts, and among tied maxima it
returns the lowest index (first-max semantics). -/
theorem select_arm_first_max (b : UCB1) (_hwf : b.counts.length = b.values.length)
    (hne : b.counts ≠ []) (hall : ∀ c ∈ b.counts, 1 ≤ c) :
    ∃ i, b.select_arm = some i ∧ i < b.counts.length ∧
      (∀ j, j < b.counts.length →
        ucbScore (b.values.getD j 0) b.counts.sum (b.counts.getD j 0)
          ≤ ucbScore (b.values.getD i 0) b.counts.sum (b.counts.getD i 0)) ∧
      (∀ j, j < i →
        ucbScore (b.values.getD j 0) b.counts.sum (b.counts.getD j 0)
          < ucbScore (b.values.getD i 0) b.counts.sum (b.counts.getD i 0)) := by
  have hfz : firstZero b.counts = none :=
    firstZero_eq_none b.counts (fun c hc => by have := hall c hc; omega)
  have hx : ucbList b ≠ [] := by
    intro hnil
    have hl := ucbList_length b
    rw [hnil] at hl
    exact hne (List.length_eq_zero.mp hl.symm)
  obtain ⟨i, hi, hlt, hmax, hfirst⟩ := ind_max_spec (ucbList b) hx
  have hlt' : i < b.counts.length := by rwa [ucbList_length b] at hlt
  refine ⟨i, ?_, hlt', ?_, ?_⟩
  · rw [select_arm_warm b hfz, hi]
  · intro j hj
    have h1 := hmax j (by rwa [ucbList_length b])
    rwa [ucbList_getD b j hj, ucbList_getD b i hlt'] at h1
  · intro j hj
    have h1 := hfirst j hj
    rwa [ucbList_getD b j (lt_trans hj hlt'), ucbList_getD b i hlt'] at h1

/-- Witness for C2 at the agent `⟨[1, 1], [0, 0]⟩`. -/
theorem select_arm_first_max_witness :
    ((UCB1.mk [1, 1] [0, 0]).counts.length = (UCB1.mk [1, 1] [0, 0]).values.length ∧
      (UCB1.mk [1, 1] [0, 0]).counts ≠ [] ∧
      (∀ c ∈ (UCB1.mk [1, 1] [0, 0]).counts, 1 ≤ c)) ∧
    (∃ i, (UCB1.mk [1, 1] [0, 0]).select_arm = some i ∧
      i < (UCB1.mk [1, 1] [0, 0]).counts.length ∧
      (∀ j, j < (UCB1.mk [1, 1] [0, 0]).counts.length →
        ucbScore ((UCB1.mk [1, 1] [0, 0]).values.getD j 0)
            (UCB1.mk [1, 1] [0, 0]).counts.sum
            ((UCB1.mk [1, 1] [0, 0]).counts.getD j 0)
          ≤ ucbScore ((UCB1.mk [1, 1] [0, 0]).values.getD i 0)
            (UCB1.mk [1, 1] [0, 0]).counts.sum
            ((UCB1.mk [1, 1] [0, 0]).counts.getD i 0)) ∧
      (∀ j, j < i →
        ucbScore ((UCB1.mk [1, 1] [0, 0]).values.getD j 0)
            (UCB1.mk [1, 1] [0, 0]).counts.sum
            ((UCB1.mk [1, 1] [0, 0]).counts.getD j 0)
          < ucbScore ((UCB1.mk [1, 1] [0, 0]).values.getD i 0)
            (UCB1.mk [1, 1] [0, 0]).counts.sum
            ((UCB1.mk [1, 1] [0, 0]).counts.getD i 0))) :=
  ⟨⟨by decide, by decide, by decide⟩,
    select_arm_first_max (UCB1.mk [1, 1] [0, 0]) (by decide) (by decide) (by decide)⟩

/-- Claim C3: feeding rewards `r_1 .. r_n` (`n ≥ 1`) to arm `i` of a fresh
agent by repeated `update` leaves `count[i] = n` and `value[i]` equal to the
arithmetic mean of the rewards (exactly, in rational arithmetic). -/
theorem update_mean (K i : ℕ) (rs : List ℚ) (hi : i < K) (hne : rs ≠ []) :
    ∃ b, feed (UCB1.init K) i rs = some b ∧
      b.counts.getD i 0 = rs.length ∧
      b.values.getD i 0 = rs.sum / (rs.length : ℚ) := by
  have hic : i < (UCB1.init K).counts.length := by
    simp only [UCB1.init, List.length_replicate]
    exact hi
  have hwf : (UCB1.init K).counts.length = (UCB1.init K).values.length := by
    simp [UCB1.init]
  obtain ⟨b, hfeed, hlc, hlv, hcnt, hval⟩ := feed_spec rs (UCB1.init K) i hic hwf
  have hc0 : (UCB1.init K).counts.getD i 0 = 0 := getD_replicate K i 0 0 hi
  have hv0 : (UCB1.init K).values.getD i 0 = 0 := getD_replicate K i 0 0 hi
  rw [hc0] at hcnt hval
  rw [hv0] at hval
  have hlenne : ((rs.length : ℕ) : ℚ) ≠ 0 := by
    have h : rs.length ≠ 0 := fun h => hne (List.length_eq_zero.mp h)
    exact_mod_cast h
  refine ⟨b, hfeed, by omega, ?_⟩
  rw [eq_div_iff hlenne]
  push_cast at hval ⊢
  ring_nf at hval ⊢
  linarith [hval]

/-- Witness for C3 at `K = 1`, `i = 0`, rewards `[1, 2]`. -/
theorem update_mean_witness :
    (0 < 1 ∧ [(1 : ℚ), 2] ≠ []) ∧
      ∃ b, feed (UCB1.init 1) 0 [(1 : ℚ), 2] = some b ∧
        b.counts.getD 0 0 = [(1 : ℚ), 2].length ∧
        b.values.getD 0 0 = [(1 : ℚ), 2].sum / (([(1 : ℚ), 2].length : ℕ) : ℚ) :=
  ⟨⟨by decide, by decide⟩, update_mean 1 0 [(1 : ℚ), 2] (by decide) (by decide)⟩

/-- Claim C4: the code's update `((n-1)/n)*v + (1/n)*r` coincides with the
spec's incremental mean `v + (r - v)/n` for every post-increment count
`n ≥ 1` (exact arithmetic), so the implemented update refines the spec. -/
theorem update_refines_spec (v r n : ℚ) (hn : 1 ≤ n) :
    code_new_value n v r = spec_record_value v r n := by
  have hn0 : n ≠ 0 := by
    intro h
    rw [h] at hn
    norm_num at hn
  rw [code_new_value, spec_record_value]
  field_simp
  ring

/-- Witness for C4 at `v = 0`, `r = 1`, `n = 1`. -/
theorem update_refines_spec_witness :
    (1 ≤ (1 : ℚ)) ∧ code_new_value 1 0 1 = spec_record_value 0 1 1 :=
  ⟨by norm_num, update_refines_spec 0 1 1 (by norm_num)⟩

/-- Claim C6: `select_arm` is a pure read (it is a function of the agent
state alone and mutates nothing, which the embedding reflects by its type
`UCB1 → Option ℕ`), so two consecutive calls with no intervening update
return the same arm index. -/
theorem select_arm_deterministic (b : UCB1) (a1 a2 : ℕ)
    (h1 : b.select_arm = some a1) (h2 : b.select_arm = some a2) : a1 = a2 := by
  rw [h1] at h2
  exact Option.some.inj h2

/-- Witness for C6: two consecutive calls on a fresh 2-arm agent. -/
theorem select_arm_deterministic_witness :
    ((UCB1.init 2).select_arm = some 0 ∧ (UCB1.init 2).select_arm = some 0) ∧ 0 = 0 :=
  ⟨⟨rfl, rfl⟩, select_arm_deterministic (UCB1.init 2) 0 0 rfl rfl⟩

/-- Claim C5 (counterexample): the monotonic-decay claim fails for a
single-arm agent.  With `value = 0` and no other arms, increasing the
count from 1 (total 1, score `0 + sqrt(2*ln 1/1) = 0`) to 2 (total 2,
score `sqrt(2*ln 2/2) > 0`) strictly increases the UCB score, because
`total` grows together with `count[i]`. -/
theorem ucb_decay_counterexample :
    ucbScore 0 1 1 < ucbScore 0 2 2 ∧ ¬ ucbScore 0 2 2 < ucbScore 0 1 1 := by
  have h1 : ucbScore 0 1 1 = 0 := by
    rw [ucbScore]
    norm_num [Real.log_one, Real.sqrt_zero]
  have h2 : (0 : ℝ) < ucbScore 0 2 2 := by
    rw [ucbScore]
    have hlog : (0 : ℝ) < Real.log ((2 : ℕ) : ℝ) := by
      apply Real.log_pos
      norm_num
    have : (0 : ℝ) < 2 * Real.log ((2 : ℕ) : ℝ) / ((2 : ℕ) : ℝ) := by positivity
    have hs := Real.sqrt_pos.mpr this
    push_cast at hs ⊢
    linarith
  constructor
  · rw [h1]
    exact h2
  · rw [h1]
    exact not_lt_of_gt h2

/-- Claim C5 (amended): with at least one other arm present (sum of the
other arms' counts `S ≥ 1`) and `value` fixed, strictly increasing
`count[i]` from `c ≥ 1` to `c'` strictly decreases arm `i`'s UCB score
`value + sqrt(2 * ln(S + count) / count)`. -/
theorem ucb_decay_multi_arm (v : ℚ) (S c c' : ℕ)
    (hS : 1 ≤ S) (hc : 1 ≤ c) (hcc : c < c') :
    ucbScore v (S + c') c' < ucbScore v (S + c) c := by
  rw [ucbScore, ucbScore]
  have hlog := log_div_anti S c c' hS hc hcc
  have harg : 2 * Real.log ((S + c' : ℕ) : ℝ) / ((c' : ℕ) : ℝ)
      < 2 * Real.log ((S + c : ℕ) : ℝ) / ((c : ℕ) : ℝ) := by
    rw [mul_div_assoc, mul_div_assoc]
    linarith
  have hpos : (0 : ℝ) ≤ 2 * Real.log ((S + c' : ℕ) : ℝ) / ((c' : ℕ) : ℝ) := by
    have h1 : (1 : ℝ) ≤ ((S + c' : ℕ) : ℝ) := by
      have : 1 ≤ S + c' := by omega
      exact_mod_cast this
    have h2 : (0 : ℝ) ≤ Real.log ((S + c' : ℕ) : ℝ) := Real.log_nonneg h1
    positivity
  have := Real.sqrt_lt_sqrt hpos harg
  linarith

/-- Witness for the amended C5 at `v = 0`, `S = 1`, `c = 1`, `c' = 2`. -/
theorem ucb_decay_multi_arm_witness :
    (1 ≤ 1 ∧ 1 ≤ 1 ∧ 1 < 2) ∧ ucbScore 0 (1 + 2) 2 < ucbScore 0 (1 + 1) 1 :=
  ⟨⟨by decide, by decide, by decide⟩, ucb_decay_multi_arm 0 1 1 2 (by decide) (by decide) (by decide)⟩

/-- Claim C7: for the 2-arm comparison run, whenever `bandit_vs_AB` over
`trials` trials returns scores, both are integers in `[0, trials]`
(counts are naturals, so nonnegativity is structural), and each counter
grows by at most one per trial. -/
theorem bandit_vs_AB_bounds (trials : ℕ) (envB envAB : ℕ → String → Bool)
    (bs ab : ℕ) (h : bandit_vs_AB trials envB envAB = some (bs, ab))
    (i : ℕ) (s1 s2 : UCB1 × ℕ × ℕ)
    (h1 : bandit_vs_AB_loop envB envAB i = some s1)
    (h2 : bandit_vs_AB_loop envB envAB (i + 1) = some s2) :
    (bs ≤ trials ∧ ab ≤ trials) ∧ s2.2.1 ≤ s1.2.1 + 1 ∧ s2.2.2 ≤ s1.2.2 + 1 := by
  constructor
  · rw [bandit_vs_AB] at h
    rcases Option.map_eq_some'.mp h with ⟨s, hs, hpair⟩
    have hb := bandit_loop_bounds envB envAB trials s hs
    have hbs : s.2.1 = bs := congrArg Prod.fst hpair
    have hab : s.2.2 = ab := congrArg Prod.snd hpair
    rw [← hbs, ← hab]
    exact hb
  · obtain ⟨s1', hs1', hx, hy⟩ := bandit_loop_succ envB envAB i s2 h2
    rw [h1] at hs1'
    have he := Option.some.inj hs1'
    subst he
    constructor
    · rcases hx with h' | h' <;> omega
    · rcases hy with h' | h' <;> omega

/-- Witness for C7 at `trials = 1` with the all-success oracles. -/
theorem bandit_vs_AB_bounds_witness :
    (bandit_vs_AB 1 (fun _ _ => true) (fun _ _ => true) = some (1, 1) ∧
      bandit_vs_AB_loop (fun _ _ => true) (fun _ _ => true) 0
        = some (UCB1.init 2, 0, 0) ∧
      bandit_vs_AB_loop (fun _ _ => true) (fun _ _ => true) 1
        = some (UCB1.mk [1, 0] [1, 0], 1, 1)) ∧
    ((1 ≤ 1 ∧ 1 ≤ 1) ∧ 1 ≤ 0 + 1 ∧ 1 ≤ 0 + 1) := by
  have h0 : bandit_vs_AB_loop (fun _ _ => true) (fun _ _ => true) 0
      = some (UCB1.init 2, 0, 0) := rfl
  have h1 : bandit_vs_AB_loop (fun _ _ => true) (fun _ _ => true) 1
      = some (UCB1.mk [1, 0] [1, 0], 1, 1) := by
    norm_num [bandit_vs_AB_loop, UCB1.init, List.replicate, treatments, UCB1.update,
      UCB1.select_arm, firstZero, pyIdx, code_new_value]
  have hmain : bandit_vs_AB 1 (fun _ _ => true) (fun _ _ => true) = some (1, 1) := by
    rw [bandit_vs_AB, h1]
    rfl
  exact ⟨⟨hmain, h0, h1⟩,
    bandit_vs_AB_bounds 1 (fun _ _ => true) (fun _ _ => true) 1 1 hmain 0
      (UCB1.init 2, 0, 0) (UCB1.mk [1, 0] [1, 0], 1, 1) h0 h1⟩

/-- Claim C8 (counterexample): `update(-1, 1.0)` on a fresh 2-arm agent
does not raise; Python's negative indexing wraps around and the call
silently increments arm 1's count and sets its value — contradicting the
claim that every index outside `[0, K)` raises with no modification. -/
theorem update_neg_index_counterexample :
    UCB1.update (UCB1.mk [0, 0] [0, 0]) (-1) 1 = some (UCB1.mk [0, 1] [0, 1]) := by
  norm_num [UCB1.update, pyIdx, code_new_value]

/-- Claim C8 (amended): `update(i, reward)` raises an `IndexError`
(propagated to the caller, with no arm modified) exactly for `i ≥ K` or
`i < -K`; indices in `[-K, -1]` are accepted by Python list semantics and
silently address arm `K + i` instead. -/
theorem update_out_of_range_raises (b : UCB1) (i : ℤ) (r : ℚ)
    (h : (b.counts.length : ℤ) ≤ i ∨ i < -(b.counts.length : ℤ)) :
    b.update i r = none := by
  rw [UCB1.update, pyIdx_out_of_range b.counts.length i h]
  rfl

/-- Witness for the amended C8 at a fresh 2-arm agent and index 5. -/
theorem update_out_of_range_raises_witness :
    ((((UCB1.init 2).counts.length : ℤ) ≤ 5 ∨
        (5 : ℤ) < -((UCB1.init 2).counts.length : ℤ)) ∧
      (UCB1.init 2).update 5 1 = none) :=
  ⟨by decide, update_out_of_range_raises (UCB1.init 2) 5 1 (by decide)⟩

/-- Claim C9 (counterexample): constructing an agent with `K = 0` arms
succeeds silently — `UCB1(0)` yields empty `counts`/`values` and no
`DegenerateConfiguration` (or any other) error is raised. -/
theorem init_zero_arms_counterexample : UCB1.init 0 = UCB1.mk [] [] := rfl

/-- Claim C9 (amended): agent construction never raises: for every `K`
(including `K = 0`) it returns an agent with exactly `K` arms; the code
defines no `DegenerateConfiguration` check, and with zero arms the
failure surfaces only later, when `select_arm` raises on `max([])`. -/
theorem init_no_degenerate_guard :
    (∀ K : ℕ, (UCB1.init K).counts.length = K ∧ (UCB1.init K).values.length = K) ∧
      (UCB1.init 0).select_arm = none := by
  constructor
  · intro K
    simp [UCB1.init]
  · rfl

/-- Claim C10: for every trial count and non-empty label list,
`train_UCB1` returns an agent whose counts sum to `trials`, are all
non-negative, and whose arm count equals `len(arm_labels)`. -/
theorem train_UCB1_invariants (trials : ℕ) (arm_labels : List String)
    (env : ℕ → String → Bool) (hne : arm_labels ≠ []) :
    ∃ b, train_UCB1 trials arm_labels env = some b ∧
      b.counts.sum = trials ∧
      b.counts.length = arm_labels.length ∧
      ∀ c ∈ b.counts, 0 ≤ c := by
  obtain ⟨b, hb, hlc, hlv, hsum⟩ := trainLoop_spec arm_labels env hne trials
  exact ⟨b, hb, hsum, hlc, fun c _ => Nat.zero_le c⟩

/-- Witness for C10 at one trial over the two treatment labels. -/
theorem train_UCB1_invariants_witness :
    (["basic", "advanced"] ≠ ([] : List String)) ∧
      ∃ b, train_UCB1 1 ["basic", "advanced"] (fun _ _ => true) = some b ∧
        b.counts.sum = 1 ∧
        b.counts.length = (["basic", "advanced"] : List String).length ∧
        ∀ c ∈ b.counts, 0 ≤ c :=
  ⟨by decide, train_UCB1_invariants 1 ["basic", "advanced"] (fun _ _ => true) (by decide)⟩
